import Mathlib

/-!
Shallow embedding of the Cadocurrency proof-of-work ledger server
(`server.py`) and verification of its specification claims.

Modelling conventions:
* Python `float` amounts, rewards and timestamps are modelled as `ℚ`
  (the specification treats them as reals).
* Python dicts with `.get(k, default)` are modelled as functions
  (`String → ℚ`, `String → Option ℤ`, ...) updated with `Function.update`.
* `hashlib.sha1` is an external primitive and is passed as an abstract
  digest parameter `f : String → String`; all theorems quantify over it.
* Python `int(q)` truncates toward zero; it is modelled by `pyint`.
  `difficulty_to_threshold` mixes `int` and binary-`float` arithmetic; the
  rational model below returns the same integer as the IEEE-double
  evaluation at every clamped input 75..120 (finite enumeration), so the
  embedding is exact on all reachable inputs.
-/

namespace Cado

/-- Block reward economics, from the top of `server.py`. -/
def HALVING_INTERVAL : ℕ := 1000

def INITIAL_REWARD : ℚ := 4

def MIN_REWARD : ℚ := 1 / 4

/-- Difficulty settings, from the top of `server.py`. -/
def MIN_DIFFICULTY : ℤ := 75

def DEFAULT_DIFFICULTY : ℤ := 100

def MAX_DIFFICULTY : ℤ := 120

/-- Desired seconds between accepted shares of one miner. -/
def TARGET_SHARE_TIME : ℚ := 5

/-- A transaction record `{"from": ..., "to": ..., "amount": ...}`. -/
structure Tx where
  sender : String
  receiver : String
  amount : ℚ
deriving DecidableEq

/-- A block record as stored in `chain.json`. -/
structure Block where
  index : ℕ
  timestamp : ℚ
  transactions : List Tx
  prev_hash : String
  nonce : ℤ
  hash : String
  miner : String
deriving DecidableEq

/-- The synthetic genesis block created by `load_chain`. -/
def genesisBlock : Block :=
  ⟨0, 0, [], ("0"), 0, ("0"), ("genesis")⟩

/-- `get_height(chain) = len(chain) - 1`. -/
def get_height (chain : List Block) : ℕ := chain.length - 1

/-- The debit half of one `compute_balances` loop iteration:
`if sender != "network": balances[sender] = balances.get(sender, 0.0) - amount`. -/
def debit (b : String → ℚ) (tx : Tx) : String → ℚ :=
  if tx.sender = "network" then b
  else Function.update b tx.sender (b tx.sender - tx.amount)

/-- One `compute_balances` loop iteration: conditional debit of the sender,
then `balances[to] = balances.get(to, 0.0) + amount`. -/
def applyTx (b : String → ℚ) (tx : Tx) : String → ℚ :=
  Function.update (debit b tx) tx.receiver (debit b tx tx.receiver + tx.amount)

/-- All transactions of a chain, in block order then transaction order. -/
def chainTxs (chain : List Block) : List Tx :=
  chain.foldr (fun blk acc => blk.transactions ++ acc) []

/-- Replay a transaction list over a running balance mapping. -/
def applyTxs (txs : List Tx) (b : String → ℚ) : String → ℚ :=
  txs.foldl applyTx b

/-- `compute_balances(chain)`: derive balances by replaying every
transaction of every block; absent keys read as `0.0`. -/
def compute_balances (chain : List Block) : String → ℚ :=
  applyTxs (chainTxs chain) (fun _ => 0)

/-- `get_block_reward(height) = max(INITIAL_REWARD / 2**(height // HALVING_INTERVAL), MIN_REWARD)`. -/
def get_block_reward (height : ℕ) : ℚ :=
  max (INITIAL_REWARD / 2 ^ (height / HALVING_INTERVAL)) MIN_REWARD

/-- Python `int(...)` on a rational value: truncation toward zero. -/
def pyint (q : ℚ) : ℤ := if 0 ≤ q then ⌊q⌋ else ⌈q⌉

/-- `easy_threshold = int(max_raw * 0.9)` with `max_raw = 16**6 - 1`. -/
def easy_threshold : ℤ := pyint ((16 ^ 6 - 1 : ℚ) * (9 / 10))

/-- `hard_threshold = int(max_raw * 0.2)`. -/
def hard_threshold : ℤ := pyint ((16 ^ 6 - 1 : ℚ) * (2 / 10))

/-- The two clamping `if`s of `difficulty_to_threshold`. -/
def pyClamp (d : ℤ) : ℤ :=
  let d1 := if d < MIN_DIFFICULTY then MIN_DIFFICULTY else d
  if d1 > MAX_DIFFICULTY then MAX_DIFFICULTY else d1

/-- The linear interpolation of `difficulty_to_threshold` on a clamped
difficulty: `int(easy + (hard - easy) * (d - min_d) / (max_d - min_d))`. -/
def thrInterp (d : ℤ) : ℤ :=
  pyint ((easy_threshold : ℚ) +
    ((hard_threshold : ℚ) - (easy_threshold : ℚ)) *
      (((d : ℚ) - (MIN_DIFFICULTY : ℤ)) / ((MAX_DIFFICULTY : ℤ) - (MIN_DIFFICULTY : ℤ))))

/-- `difficulty_to_threshold(diff)`: clamp, then interpolate. -/
def difficulty_to_threshold (diff : ℤ) : ℤ := thrInterp (pyClamp diff)

/-- Value of one hexadecimal digit character, as `int(..., 16)` reads it. -/
def hexDigitVal (c : Char) : ℕ :=
  if 48 ≤ c.toNat ∧ c.toNat ≤ 57 then c.toNat - 48
  else if 97 ≤ c.toNat ∧ c.toNat ≤ 102 then c.toNat - 87
  else if 65 ≤ c.toNat ∧ c.toNat ≤ 70 then c.toNat - 55
  else 0

/-- `int(s, 16)` for a hexadecimal string. -/
def hexNat (s : String) : ℕ :=
  s.toList.foldl (fun acc c => 16 * acc + hexDigitVal c) 0

/-- The amount a transaction mints: its amount when it is a coinbase
(sender `"network"`), zero otherwise. -/
def txCoinbaseAmt (tx : Tx) : ℚ :=
  if tx.sender = "network" then tx.amount else 0

/-- Total of all coinbase amounts in a transaction list. -/
def coinbaseTotal (txs : List Tx) : ℚ := (txs.map txCoinbaseAmt).sum

lemma sum_update (f : String → ℚ) (a : String) (v : ℚ) (S : Finset String)
    (ha : a ∈ S) :
    ∑ x in S, Function.update f a v x = (∑ x in S, f x) + (v - f a) := by
  rw [Finset.sum_update_of_mem ha,
    Finset.sum_sdiff_eq_sub (Finset.singleton_subset_iff.mpr ha),
    Finset.sum_singleton]
  ring

lemma sum_applyTx (b : String → ℚ) (tx : Tx) (S : Finset String)
    (hs : tx.sender ∈ S) (hr : tx.receiver ∈ S) :
    ∑ a in S, applyTx b tx a = (∑ a in S, b a) + txCoinbaseAmt tx := by
  unfold applyTx txCoinbaseAmt
  rw [sum_update _ _ _ _ hr]
  unfold debit
  by_cases h : tx.sender = "network"
  · simp [h]
  · rw [if_neg h, sum_update _ _ _ _ hs]
    simp only [if_neg h]
    by_cases hsr : tx.receiver = tx.sender
    · rw [hsr, Function.update_same]
      ring
    · rw [Function.update_noteq hsr]
      ring

lemma sum_applyTxs (txs : List Tx) (b : String → ℚ) (S : Finset String)
    (h : ∀ tx ∈ txs, tx.sender ∈ S ∧ tx.receiver ∈ S) :
    ∑ a in S, applyTxs txs b a = (∑ a in S, b a) + coinbaseTotal txs := by
  induction txs generalizing b with
  | nil => simp [applyTxs, coinbaseTotal]
  | cons tx rest ih =>
    have htx := h tx (List.mem_cons_self tx rest)
    have hrest : ∀ t ∈ rest, t.sender ∈ S ∧ t.receiver ∈ S := by
      intro t ht
      exact h t (List.mem_cons_of_mem tx ht)
    have step : applyTxs (tx :: rest) b = applyTxs rest (applyTx b tx) := rfl
    rw [step, ih (applyTx b tx) hrest, sum_applyTx b tx S htx.1 htx.2]
    unfold coinbaseTotal
    simp [List.map_cons]
    ring

/-- C1: balance derivation is conservative — over any account set covering
every sender and receiver occurring in the chain, the summed derived
balances equal the summed coinbase amounts; transfers are zero-sum and only
coinbase (sender `"network"`) net-creates value. -/
theorem C1_balance_conservation (chain : List Block) (S : Finset String)
    (h : ∀ tx ∈ chainTxs chain, tx.sender ∈ S ∧ tx.receiver ∈ S) :
    ∑ a in S, compute_balances chain a = coinbaseTotal (chainTxs chain) := by
  unfold compute_balances
  rw [sum_applyTxs (chainTxs chain) _ S h]
  simp

/-- The mutable server state touched by the mining and transfer routes:
the persisted chain (`chain.json`), the `mempool` list, and the per-miner
`miner_difficulty` / `last_share_time` dicts. -/
structure ServerState where
  chain : List Block
  mempool : List Tx
  miner_difficulty : String → Option ℤ
  last_share_time : String → Option ℚ

/-- The state right after `load_chain` creates the genesis chain, with
empty mempool and empty per-miner dicts. -/
def initialState : ServerState :=
  ⟨[genesisBlock], [], fun _ => none, fun _ => none⟩

/-- `chain[-1]` (the chain is never empty: it always starts at genesis). -/
def tipOf (st : ServerState) : Block := st.chain.getLastD genesisBlock

/-- `miner_difficulty.get(miner_id, DEFAULT_DIFFICULTY)`. -/
def currentDiff (st : ServerState) (m : String) : ℤ :=
  (st.miner_difficulty m).getD DEFAULT_DIFFICULTY

/-- `h = sha1_hex(seed + str(nonce))`, for an abstract digest `f`. -/
def powHash (f : String → String) (s : String) (n : ℤ) : String :=
  f (s ++ toString n)

/-- `hash_val = int(h[:6], 16)`. -/
def powVal (f : String → String) (s : String) (n : ℤ) : ℤ :=
  (hexNat ((powHash f s n).take 6) : ℤ)

/-- `height = get_height(chain) + 1`, the index of the block being mined. -/
def newHeight (st : ServerState) : ℕ := get_height st.chain + 1

/-- `reward = get_block_reward(height)` for the block being mined. -/
def blockReward (st : ServerState) : ℚ := get_block_reward (newHeight st)

/-- `coinbase_tx = {"from": "network", "to": miner_id, "amount": reward}`. -/
def coinbaseOf (st : ServerState) (m : String) : Tx :=
  ⟨("network"), m, blockReward st⟩

/-- The debit of the mempool loop (applied to every sender, no `"network"`
special case): `balances[sender] = balances.get(sender, 0.0) - amount`. -/
def debitAll (b : String → ℚ) (tx : Tx) : String → ℚ :=
  Function.update b tx.sender (b tx.sender - tx.amount)

/-- One affordable-transfer application inside the mempool loop: debit the
sender, then credit the receiver. -/
def applyTransfer (b : String → ℚ) (tx : Tx) : String → ℚ :=
  Function.update (debitAll b tx) tx.receiver (debitAll b tx tx.receiver + tx.amount)

/-- The mempool walk of `submit_share`: in FIFO order, a pending
transaction whose sender's running balance covers its amount is selected
(debiting/crediting the running balances); otherwise it is kept for the
new mempool.  Returns `(selected, remaining, final running balances)`. -/
def selectTxs : List Tx → (String → ℚ) → List Tx × List Tx × (String → ℚ)
  | [], b => ([], [], b)
  | tx :: rest, b =>
    if tx.amount ≤ b tx.sender then
      let r := selectTxs rest (applyTransfer b tx)
      (tx :: r.1, r.2.1, r.2.2)
    else
      let r := selectTxs rest b
      (r.1, tx :: r.2.1, r.2.2)

/-- The selection pass of one `submit_share` call, seeded with the
confirmed balances of the current chain (the coinbase of the block being
assembled is not part of the running balances). -/
def selection (st : ServerState) : List Tx × List Tx × (String → ℚ) :=
  selectTxs st.mempool (compute_balances st.chain)

/-- The block constructed by an accepted `submit_share` call. -/
def assembledBlock (f : String → String) (st : ServerState) (m s : String)
    (n : ℤ) (block_time : ℚ) : Block :=
  ⟨newHeight st, block_time, coinbaseOf st m :: (selection st).1,
    (tipOf st).hash, n, powHash f s n, m⟩

/-- `elapsed`: `now - prev_time` unless the previous timestamp is absent or
equal to `now`, in which case the neutral `TARGET_SHARE_TIME` is used
(`prev_time = last_share_time.get(miner_id, now)`). -/
def elapsedOf (st : ServerState) (m : String) (now : ℚ) : ℚ :=
  if (st.last_share_time m).getD now ≠ now then now - (st.last_share_time m).getD now
  else TARGET_SHARE_TIME

/-- The additive retarget step: `+1` when faster than target, `-1`
otherwise. -/
def stepDiff (st : ServerState) (m : String) (now : ℚ) : ℤ :=
  if elapsedOf st m now < TARGET_SHARE_TIME then currentDiff st m + 1
  else currentDiff st m - 1

/-- The two clamping `if`s after the retarget step. -/
def clampDiff (d : ℤ) : ℤ :=
  let d1 := if d < MIN_DIFFICULTY then MIN_DIFFICULTY else d
  if d1 > MAX_DIFFICULTY then MAX_DIFFICULTY else d1

/-- The JSON body of an accepting `submit_share` response. -/
structure AcceptResp where
  hash : String
  height : ℕ
  reward : ℚ
  balance : ℚ
  difficulty : ℤ
  share_time : ℚ
deriving DecidableEq

/-- Result of one `submit_share` call: a structured rejection, an
exception while persisting the chain (`save_chain` failing after the
mempool was already replaced), or acceptance.  Each constructor carries
the server state as the call leaves it. -/
inductive Outcome where
  | rejected : String → ServerState → Outcome
  | saveFailed : ServerState → Outcome
  | accepted : AcceptResp → ServerState → Outcome

/-- The server state an outcome leaves behind. -/
def Outcome.state : Outcome → ServerState
  | .rejected _ st => st
  | .saveFailed st => st
  | .accepted _ st => st

/-- The error string of a structured rejection, if any. -/
def Outcome.errorMsg : Outcome → Option String
  | .rejected e _ => some e
  | .saveFailed _ => none
  | .accepted _ _ => none

/-- Whether the outcome reports `accepted: true`. -/
def Outcome.isAccepted : Outcome → Bool
  | .accepted _ _ => true
  | _ => false

/-- The mempool an outcome leaves behind. -/
def Outcome.pool (o : Outcome) : List Tx := o.state.mempool

/-- The transactions of the chain tip an outcome leaves behind. -/
def Outcome.tipTxs (o : Outcome) : List Tx :=
  (o.state.chain.getLastD genesisBlock).transactions

/-- The submitted nonce field: absent, unparseable by `int(...)`, or an
integer value. -/
inductive NonceInput where
  | missing : NonceInput
  | malformed : NonceInput
  | value : ℤ → NonceInput
deriving DecidableEq

/-- `submit_share` (the `/submit_share` route body after authentication),
for an abstract SHA-1 digest `f`.  `block_time` and `now` are the two
`time.time()` readings; `save_ok` tells whether `save_chain` succeeds. -/
def submit_share (f : String → String) (st : ServerState) (miner_id : String)
    (seed : Option String) (nonce : NonceInput) (block_time now : ℚ)
    (save_ok : Bool) : Outcome :=
  match seed, nonce with
  | none, _ => .rejected ("Missing seed or nonce") st
  | some _, .missing => .rejected ("Missing seed or nonce") st
  | some _, .malformed => .rejected ("Invalid nonce") st
  | some s, .value n =>
    if s ≠ (tipOf st).hash then .rejected ("Stale job") st
    else if difficulty_to_threshold (currentDiff st miner_id) ≤ powVal f s n then
      .rejected ("Invalid share") st
    else
      let chain' := st.chain ++ [assembledBlock f st miner_id s n block_time]
      let pool' := (selection st).2.1
      if save_ok then
        .accepted
          ⟨powHash f s n, newHeight st, blockReward st,
            compute_balances chain' miner_id,
            clampDiff (stepDiff st miner_id now), elapsedOf st miner_id now⟩
          ⟨chain', pool',
            Function.update st.miner_difficulty miner_id
              (some (clampDiff (stepDiff st miner_id now))),
            Function.update st.last_share_time miner_id (some now)⟩
      else .saveFailed { st with mempool := pool' }

/-- The submitted amount field of `/send`: absent, unparseable by
`float(...)`, or a value. -/
inductive AmountInput where
  | missing : AmountInput
  | malformed : AmountInput
  | value : ℚ → AmountInput
deriving DecidableEq

/-- Result of one `/send` call. -/
inductive SendOutcome where
  | failure : String → ServerState → SendOutcome
  | success : ServerState → SendOutcome

/-- The server state a `/send` outcome leaves behind. -/
def SendOutcome.state : SendOutcome → ServerState
  | .failure _ st => st
  | .success st => st

/-- `send` (the `/send` route body after authentication): validates the
fields, requires a positive amount covered by the confirmed balance, then
enqueues the transfer into the mempool. -/
def send (st : ServerState) (miner_id : String) (receiver : Option String)
    (amountIn : AmountInput) : SendOutcome :=
  if receiver = none ∨ receiver = some ("") ∨ amountIn = .missing then
    .failure ("Missing fields") st
  else
    match amountIn with
    | .missing => .failure ("Missing fields") st
    | .malformed => .failure ("Invalid amount") st
    | .value amount =>
      if amount ≤ 0 then .failure ("Amount must be positive") st
      else if compute_balances st.chain miner_id < amount then
        .failure ("Insufficient balance") st
      else
        .success { st with
          mempool := st.mempool ++ [⟨miner_id, receiver.getD (""), amount⟩] }

/-- States reachable from the freshly created genesis state through the
two chain-mutating routes, `/submit_share` and `/send`. -/
inductive Reachable : ServerState → Prop where
  | base : Reachable initialState
  | submit (st : ServerState) (f : String → String) (m : String)
      (sd : Option String) (nc : NonceInput) (bt now : ℚ) (ok : Bool) :
      Reachable st → Reachable (submit_share f st m sd nc bt now ok).state
  | transfer (st : ServerState) (m : String) (r : Option String)
      (a : AmountInput) :
      Reachable st → Reachable (send st m r a).state

lemma submit_share_stale (f : String → String) (st : ServerState)
    (m s : String) (n : ℤ) (bt now : ℚ) (ok : Bool)
    (h : s ≠ (tipOf st).hash) :
    submit_share f st m (some s) (.value n) bt now ok =
      .rejected ("Stale job") st := by
  simp [submit_share, h]

lemma submit_share_invalid (f : String → String) (st : ServerState)
    (m s : String) (n : ℤ) (bt now : ℚ) (ok : Bool)
    (hseed : s = (tipOf st).hash)
    (h : difficulty_to_threshold (currentDiff st m) ≤ powVal f s n) :
    submit_share f st m (some s) (.value n) bt now ok =
      .rejected ("Invalid share") st := by
  subst hseed
  simp [submit_share, h]

lemma submit_share_accepted (f : String → String) (st : ServerState)
    (m s : String) (n : ℤ) (bt now : ℚ)
    (hseed : s = (tipOf st).hash)
    (hpow : powVal f s n < difficulty_to_threshold (currentDiff st m)) :
    submit_share f st m (some s) (.value n) bt now true =
      .accepted
        ⟨powHash f s n, newHeight st, blockReward st,
          compute_balances (st.chain ++ [assembledBlock f st m s n bt]) m,
          clampDiff (stepDiff st m now), elapsedOf st m now⟩
        ⟨st.chain ++ [assembledBlock f st m s n bt], (selection st).2.1,
          Function.update st.miner_difficulty m
            (some (clampDiff (stepDiff st m now))),
          Function.update st.last_share_time m (some now)⟩ := by
  subst hseed
  simp [submit_share, not_le.mpr hpow]

lemma submit_share_savefail (f : String → String) (st : ServerState)
    (m s : String) (n : ℤ) (bt now : ℚ)
    (hseed : s = (tipOf st).hash)
    (hpow : powVal f s n < difficulty_to_threshold (currentDiff st m)) :
    submit_share f st m (some s) (.value n) bt now false =
      .saveFailed { st with mempool := (selection st).2.1 } := by
  subst hseed
  simp [submit_share, not_le.mpr hpow]

lemma getLastD_snoc (l : List Block) (b d : Block) : (l ++ [b]).getLastD d = b := by
  simp [List.getLastD_concat]

lemma selectTxs_append (xs ys : List Tx) (b : String → ℚ) :
    selectTxs (xs ++ ys) b =
      ((selectTxs xs b).1 ++ (selectTxs ys (selectTxs xs b).2.2).1,
       (selectTxs xs b).2.1 ++ (selectTxs ys (selectTxs xs b).2.2).2.1,
       (selectTxs ys (selectTxs xs b).2.2).2.2) := by
  induction xs generalizing b with
  | nil => simp [selectTxs]
  | cons tx rest ih =>
    simp only [List.cons_append, selectTxs]
    by_cases h : tx.amount ≤ b tx.sender
    · simp [if_pos h, ih]
    · simp [if_neg h, ih]

lemma selectTxs_sel_sublist (l : List Tx) (b : String → ℚ) :
    List.Sublist (selectTxs l b).1 l := by
  induction l generalizing b with
  | nil => simp [selectTxs]
  | cons tx rest ih =>
    simp only [selectTxs]
    by_cases h : tx.amount ≤ b tx.sender
    · simp only [if_pos h]
      exact List.Sublist.cons₂ tx (ih (applyTransfer b tx))
    · simp only [if_neg h]
      exact List.Sublist.cons tx (ih b)

lemma selectTxs_rem_sublist (l : List Tx) (b : String → ℚ) :
    List.Sublist (selectTxs l b).2.1 l := by
  induction l generalizing b with
  | nil => simp [selectTxs]
  | cons tx rest ih =>
    simp only [selectTxs]
    by_cases h : tx.amount ≤ b tx.sender
    · simp only [if_pos h]
      exact List.Sublist.cons tx (ih (applyTransfer b tx))
    · simp only [if_neg h]
      exact List.Sublist.cons₂ tx (ih b)

lemma selectTxs_length (l : List Tx) (b : String → ℚ) :
    (selectTxs l b).1.length + (selectTxs l b).2.1.length = l.length := by
  induction l generalizing b with
  | nil => simp [selectTxs]
  | cons tx rest ih =>
    simp only [selectTxs]
    by_cases h : tx.amount ≤ b tx.sender
    · simp only [if_pos h, List.length_cons]
      have := ih (applyTransfer b tx)
      omega
    · simp only [if_neg h, List.length_cons]
      have := ih b
      omega

/-- C4: a submission whose seed is not the current tip hash is rejected
with the stale-job error and leaves the state unchanged, for every digest
function and nonce — so the staleness check decides before (and
independently of) the proof-of-work check. -/
theorem C4_stale_before_pow (f : String → String) (st : ServerState)
    (m s : String) (n : ℤ) (bt now : ℚ) (ok : Bool)
    (h : s ≠ (tipOf st).hash) :
    submit_share f st m (some s) (.value n) bt now ok =
      .rejected ("Stale job") st :=
  submit_share_stale f st m s n bt now ok h

/-- C4 witness: on the genesis state, seed `"1"` differs from the tip hash
`"0"` and is rejected as stale even though the digest is all zeroes (which
would pass the proof-of-work check). -/
theorem C4_stale_before_pow_witness :
    submit_share (fun _ => ("000000")) initialState ("alice") (some ("1"))
      (.value 0) 0 0 true = .rejected ("Stale job") initialState :=
  C4_stale_before_pow (fun _ => ("000000")) initialState ("alice") ("1") 0 0 0 true
    (by decide)

/-- C5: with a fresh seed and parsed nonce, the submission is accepted iff
the first 6 hexadecimal digits of the digest of `seed ++ decimal(nonce)`,
read as an unsigned integer, are strictly below the miner's threshold; a
value at or above the threshold is rejected as an invalid share. -/
theorem C5_pow_validation (f : String → String) (st : ServerState)
    (m s : String) (n : ℤ) (bt now : ℚ)
    (hseed : s = (tipOf st).hash) :
    ((submit_share f st m (some s) (.value n) bt now true).isAccepted = true ↔
      (hexNat ((f (s ++ toString n)).take 6) : ℤ) <
        difficulty_to_threshold (currentDiff st m))
  ∧ (difficulty_to_threshold (currentDiff st m) ≤
        (hexNat ((f (s ++ toString n)).take 6) : ℤ) →
      submit_share f st m (some s) (.value n) bt now true =
        .rejected ("Invalid share") st) := by
  have hval : (hexNat ((f (s ++ toString n)).take 6) : ℤ) = powVal f s n := rfl
  constructor
  · rw [hval]
    constructor
    · intro hacc
      by_contra hge
      push_neg at hge
      rw [submit_share_invalid f st m s n bt now true hseed hge] at hacc
      simp [Outcome.isAccepted] at hacc
    · intro hlt
      rw [submit_share_accepted f st m s n bt now hseed hlt]
      rfl
  · rw [hval]
    intro hge
    exact submit_share_invalid f st m s n bt now true hseed hge

/-- C5 witness: on the genesis state with the all-zero digest, the hash
prefix value 0 is below the default threshold and the share is accepted;
the rejection implication holds vacuously there. -/
theorem C5_pow_validation_witness :
    ((submit_share (fun _ => ("000000")) initialState ("alice") (some ("0"))
        (.value 0) 0 0 true).isAccepted = true ↔
      (hexNat (((fun (_ : String) => ("000000")) (("0") ++ toString (0 : ℤ))).take 6) : ℤ) <
        difficulty_to_threshold (currentDiff initialState ("alice")))
  ∧ (difficulty_to_threshold (currentDiff initialState ("alice")) ≤
        (hexNat (((fun (_ : String) => ("000000")) (("0") ++ toString (0 : ℤ))).take 6) : ℤ) →
      submit_share (fun _ => ("000000")) initialState ("alice") (some ("0"))
        (.value 0) 0 0 true = .rejected ("Invalid share") initialState) :=
  C5_pow_validation (fun _ => ("000000")) initialState ("alice") ("0") 0 0 0 (by decide)

/-- The all-zero digest, a concrete stand-in for SHA-1 whose 6-digit
prefix value 0 passes every threshold. -/
def f0 : String → String := fun _ => ("000000")

/-- The all-`f` digest, whose 6-digit prefix value `16^6 - 1` fails every
threshold. -/
def fF : String → String := fun _ => ("ffffff")

/-- A concrete mined block crediting `"alice"` with 4 coins. -/
def blkA : Block :=
  ⟨1, 0, [⟨("network"), ("alice"), (4 : ℚ)⟩], ("0"), 7, ("aa"), ("alice")⟩

/-- A concrete block carrying a coinbase and one transfer. -/
def blkB : Block :=
  ⟨1, 0, [⟨("network"), ("alice"), (4 : ℚ)⟩, ⟨("alice"), ("bob"), (1 : ℚ)⟩],
    ("0"), 0, ("bb"), ("alice")⟩

/-- C1 witness: on a concrete two-block chain with one coinbase of 4 and
one transfer, the balances over the touched accounts sum to 4. -/
theorem C1_balance_conservation_witness :
    ∑ a in ({("network"), ("alice"), ("bob")} : Finset String),
        compute_balances [genesisBlock, blkB] a =
      coinbaseTotal (chainTxs [genesisBlock, blkB]) :=
  C1_balance_conservation [genesisBlock, blkB]
    ({("network"), ("alice"), ("bob")} : Finset String) (by decide)

/-- A concrete state with a mined chain and two pending transfers from
`"alice"`, who can afford the first but then no longer the second. -/
def stC2 : ServerState :=
  ⟨[genesisBlock, blkA],
    [⟨("alice"), ("bob"), (3 : ℚ)⟩, ⟨("alice"), ("carol"), (2 : ℚ)⟩],
    fun _ => none, fun _ => none⟩

/-- C2: on an accepted share, the assembled block starts with the coinbase
transaction and then walks the pool in FIFO order against the running
balances seeded from the confirmed chain: for any split of the pool around
a transaction `t`, `t` is included exactly when its sender's running
balance after processing the prefix covers its amount, and is otherwise
kept, in order, in the new pool; selected and retained transactions are
subsequences of the pool and partition it (nothing is dropped, reordered
or partially applied). -/
theorem C2_fifo_assembly (f : String → String) (st : ServerState)
    (m s : String) (n : ℤ) (bt now : ℚ) (p₁ p₂ : List Tx) (t : Tx)
    (hseed : s = (tipOf st).hash)
    (hpow : powVal f s n < difficulty_to_threshold (currentDiff st m))
    (hpool : st.mempool = p₁ ++ t :: p₂) :
    (submit_share f st m (some s) (.value n) bt now true).isAccepted = true
  ∧ (submit_share f st m (some s) (.value n) bt now true).tipTxs.head? =
      some ⟨("network"), m, blockReward st⟩
  ∧ (t.amount ≤ (selectTxs p₁ (compute_balances st.chain)).2.2 t.sender →
      (submit_share f st m (some s) (.value n) bt now true).tipTxs =
        coinbaseOf st m ::
          ((selectTxs p₁ (compute_balances st.chain)).1 ++
            t :: (selectTxs p₂
              (applyTransfer (selectTxs p₁ (compute_balances st.chain)).2.2 t)).1)
    ∧ (submit_share f st m (some s) (.value n) bt now true).pool =
        (selectTxs p₁ (compute_balances st.chain)).2.1 ++
          (selectTxs p₂
            (applyTransfer (selectTxs p₁ (compute_balances st.chain)).2.2 t)).2.1)
  ∧ (¬ t.amount ≤ (selectTxs p₁ (compute_balances st.chain)).2.2 t.sender →
      (submit_share f st m (some s) (.value n) bt now true).tipTxs =
        coinbaseOf st m ::
          ((selectTxs p₁ (compute_balances st.chain)).1 ++
            (selectTxs p₂ (selectTxs p₁ (compute_balances st.chain)).2.2).1)
    ∧ (submit_share f st m (some s) (.value n) bt now true).pool =
        (selectTxs p₁ (compute_balances st.chain)).2.1 ++
          t :: (selectTxs p₂ (selectTxs p₁ (compute_balances st.chain)).2.2).2.1)
  ∧ List.Sublist (submit_share f st m (some s) (.value n) bt now true).pool st.mempool
  ∧ List.Sublist (submit_share f st m (some s) (.value n) bt now true).tipTxs.tail st.mempool
  ∧ (submit_share f st m (some s) (.value n) bt now true).tipTxs.tail.length +
      (submit_share f st m (some s) (.value n) bt now true).pool.length =
      st.mempool.length := by
  have hacc := submit_share_accepted f st m s n bt now hseed hpow
  have htip : (submit_share f st m (some s) (.value n) bt now true).tipTxs =
      coinbaseOf st m :: (selection st).1 := by
    rw [hacc]
    show ((st.chain ++ [assembledBlock f st m s n bt]).getLastD genesisBlock).transactions = _
    rw [getLastD_snoc]
    rfl
  have hpoolEq : (submit_share f st m (some s) (.value n) bt now true).pool =
      (selection st).2.1 := by
    rw [hacc]
    rfl
  have hsel : selection st = selectTxs (p₁ ++ t :: p₂) (compute_balances st.chain) := by
    rw [selection, hpool]
  refine ⟨?_, ?_, ?_, ?_, ?_, ?_, ?_⟩
  · rw [hacc]
    rfl
  · rw [htip]
    rfl
  · intro haff
    rw [htip, hpoolEq, hsel, selectTxs_append]
    simp only [selectTxs, if_pos haff]
    constructor <;> trivial
  · intro haff
    rw [htip, hpoolEq, hsel, selectTxs_append]
    simp only [selectTxs, if_neg haff]
    constructor <;> trivial
  · rw [hpoolEq]
    exact selectTxs_rem_sublist st.mempool (compute_balances st.chain)
  · rw [htip]
    exact selectTxs_sel_sublist st.mempool (compute_balances st.chain)
  · rw [htip, hpoolEq]
    simp only [List.tail_cons]
    exact selectTxs_length st.mempool (compute_balances st.chain)

lemma thr_default_eq : difficulty_to_threshold DEFAULT_DIFFICULTY = 8575020 := by
  norm_num [difficulty_to_threshold, thrInterp, pyClamp, pyint, easy_threshold,
    hard_threshold, MIN_DIFFICULTY, MAX_DIFFICULTY, DEFAULT_DIFFICULTY]

/-- C2 witness: on `stC2`, `"alice"` holds 4 confirmed coins; the first
pending transfer (3 to `"bob"`) is affordable and selected, after which the
second (2 to `"carol"`) is not and is retained as the whole new pool. -/
theorem C2_fifo_assembly_witness :
    (submit_share f0 stC2 ("alice") (some ("aa")) (.value 0) 0 0 true).isAccepted = true
  ∧ (submit_share f0 stC2 ("alice") (some ("aa")) (.value 0) 0 0 true).tipTxs.head? =
      some ⟨("network"), ("alice"), blockReward stC2⟩
  ∧ ((⟨("alice"), ("carol"), (2 : ℚ)⟩ : Tx).amount ≤
        (selectTxs [⟨("alice"), ("bob"), (3 : ℚ)⟩] (compute_balances stC2.chain)).2.2
          (⟨("alice"), ("carol"), (2 : ℚ)⟩ : Tx).sender →
      (submit_share f0 stC2 ("alice") (some ("aa")) (.value 0) 0 0 true).tipTxs =
        coinbaseOf stC2 ("alice") ::
          ((selectTxs [⟨("alice"), ("bob"), (3 : ℚ)⟩] (compute_balances stC2.chain)).1 ++
            (⟨("alice"), ("carol"), (2 : ℚ)⟩ : Tx) :: (selectTxs []
              (applyTransfer
                (selectTxs [⟨("alice"), ("bob"), (3 : ℚ)⟩] (compute_balances stC2.chain)).2.2
                (⟨("alice"), ("carol"), (2 : ℚ)⟩ : Tx))).1)
    ∧ (submit_share f0 stC2 ("alice") (some ("aa")) (.value 0) 0 0 true).pool =
        (selectTxs [⟨("alice"), ("bob"), (3 : ℚ)⟩] (compute_balances stC2.chain)).2.1 ++
          (selectTxs []
            (applyTransfer
              (selectTxs [⟨("alice"), ("bob"), (3 : ℚ)⟩] (compute_balances stC2.chain)).2.2
              (⟨("alice"), ("carol"), (2 : ℚ)⟩ : Tx))).2.1)
  ∧ (¬ (⟨("alice"), ("carol"), (2 : ℚ)⟩ : Tx).amount ≤
        (selectTxs [⟨("alice"), ("bob"), (3 : ℚ)⟩] (compute_balances stC2.chain)).2.2
          (⟨("alice"), ("carol"), (2 : ℚ)⟩ : Tx).sender →
      (submit_share f0 stC2 ("alice") (some ("aa")) (.value 0) 0 0 true).tipTxs =
        coinbaseOf stC2 ("alice") ::
          ((selectTxs [⟨("alice"), ("bob"), (3 : ℚ)⟩] (compute_balances stC2.chain)).1 ++
            (selectTxs []
              (selectTxs [⟨("alice"), ("bob"), (3 : ℚ)⟩] (compute_balances stC2.chain)).2.2).1)
    ∧ (submit_share f0 stC2 ("alice") (some ("aa")) (.value 0) 0 0 true).pool =
        (selectTxs [⟨("alice"), ("bob"), (3 : ℚ)⟩] (compute_balances stC2.chain)).2.1 ++
          (⟨("alice"), ("carol"), (2 : ℚ)⟩ : Tx) :: (selectTxs []
            (selectTxs [⟨("alice"), ("bob"), (3 : ℚ)⟩] (compute_balances stC2.chain)).2.2).2.1)
  ∧ List.Sublist (submit_share f0 stC2 ("alice") (some ("aa")) (.value 0) 0 0 true).pool
      stC2.mempool
  ∧ List.Sublist (submit_share f0 stC2 ("alice") (some ("aa")) (.value 0) 0 0 true).tipTxs.tail
      stC2.mempool
  ∧ (submit_share f0 stC2 ("alice") (some ("aa")) (.value 0) 0 0 true).tipTxs.tail.length +
      (submit_share f0 stC2 ("alice") (some ("aa")) (.value 0) 0 0 true).pool.length =
      stC2.mempool.length :=
  C2_fifo_assembly f0 stC2 ("alice") ("aa") 0 0 0
    [⟨("alice"), ("bob"), (3 : ℚ)⟩] [] (⟨("alice"), ("carol"), (2 : ℚ)⟩ : Tx)
    rfl
    (by
      have h1 : powVal f0 ("aa") 0 = 0 := rfl
      have h2 : currentDiff stC2 ("alice") = DEFAULT_DIFFICULTY := rfl
      rw [h1, h2, thr_default_eq]
      norm_num)
    rfl

lemma clampDiff_bounds (d : ℤ) :
    MIN_DIFFICULTY ≤ clampDiff d ∧ clampDiff d ≤ MAX_DIFFICULTY := by
  simp only [clampDiff, MIN_DIFFICULTY, MAX_DIFFICULTY]
  split_ifs <;> omega

lemma stepDiff_eq (st : ServerState) (m : String) (now : ℚ) :
    stepDiff st m now =
      currentDiff st m +
        (if elapsedOf st m now < TARGET_SHARE_TIME then 1 else -1) := by
  unfold stepDiff
  split_ifs <;> omega

lemma send_preserves_params (st : ServerState) (m : String)
    (r : Option String) (a : AmountInput) :
    (send st m r a).state.miner_difficulty = st.miner_difficulty
  ∧ (send st m r a).state.last_share_time = st.last_share_time
  ∧ (send st m r a).state.chain = st.chain := by
  rcases a with _ | _ | q <;>
    · simp only [send]
      split_ifs <;> exact ⟨rfl, rfl, rfl⟩

lemma submit_share_diff_cases (f : String → String) (st : ServerState)
    (m : String) (sd : Option String) (nc : NonceInput) (bt now : ℚ)
    (ok : Bool) (a : String) :
    (submit_share f st m sd nc bt now ok).state.miner_difficulty a =
        st.miner_difficulty a
  ∨ (submit_share f st m sd nc bt now ok).state.miner_difficulty a =
      some (clampDiff (stepDiff st m now)) := by
  rcases sd with _ | s
  · exact Or.inl rfl
  rcases nc with _ | _ | n
  · exact Or.inl rfl
  · exact Or.inl rfl
  by_cases hstale : s ≠ (tipOf st).hash
  · rw [submit_share_stale f st m s n bt now ok hstale]
    exact Or.inl rfl
  push_neg at hstale
  by_cases hpow : difficulty_to_threshold (currentDiff st m) ≤ powVal f s n
  · rw [submit_share_invalid f st m s n bt now ok hstale hpow]
    exact Or.inl rfl
  push_neg at hpow
  cases ok with
  | false =>
    rw [submit_share_savefail f st m s n bt now hstale hpow]
    exact Or.inl rfl
  | true =>
    rw [submit_share_accepted f st m s n bt now hstale hpow]
    by_cases ham : a = m
    · subst ham
      exact Or.inr (by simp [Outcome.state, Function.update_same])
    · exact Or.inl (by simp [Outcome.state, Function.update_noteq ham])

lemma reachable_diff_bounds (st : ServerState) (h : Reachable st) :
    ∀ a d, st.miner_difficulty a = some d →
      MIN_DIFFICULTY ≤ d ∧ d ≤ MAX_DIFFICULTY := by
  induction h with
  | base =>
    intro a d hd
    simp [initialState] at hd
  | submit st f m sd nc bt now ok hr ih =>
    intro a d hd
    rcases submit_share_diff_cases f st m sd nc bt now ok a with hc | hc
    · exact ih a d (hc ▸ hd)
    · rw [hc] at hd
      cases hd
      exact clampDiff_bounds (stepDiff st m now)
  | transfer st m r a hr ih =>
    intro x d hd
    rw [(send_preserves_params st m r a).1] at hd
    exact ih x d hd

/-- C3: after an accepted share, `last_share_time` is set to the current
time unconditionally; the stored difficulty becomes the old one plus 1
when the elapsed time since the miner's previous accepted share is below
the target interval and minus 1 otherwise (an absent previous share reads
as a neutral elapsed time equal to the target), clamped into
`[MIN_DIFFICULTY, MAX_DIFFICULTY]`; and in every reachable state every
stored difficulty lies in `[MIN_DIFFICULTY, MAX_DIFFICULTY]`. -/
theorem C3_retargeting (f : String → String) (st : ServerState)
    (m s : String) (n : ℤ) (bt now : ℚ)
    (hseed : s = (tipOf st).hash)
    (hpow : powVal f s n < difficulty_to_threshold (currentDiff st m)) :
    (submit_share f st m (some s) (.value n) bt now true).state.last_share_time m =
      some now
  ∧ (submit_share f st m (some s) (.value n) bt now true).state.miner_difficulty m =
      some (clampDiff (currentDiff st m +
        (if elapsedOf st m now < TARGET_SHARE_TIME then 1 else -1)))
  ∧ (st.last_share_time m = none → elapsedOf st m now = TARGET_SHARE_TIME)
  ∧ (∀ d : ℤ,
      (submit_share f st m (some s) (.value n) bt now true).state.miner_difficulty m =
        some d → MIN_DIFFICULTY ≤ d ∧ d ≤ MAX_DIFFICULTY)
  ∧ (∀ st' : ServerState, ∀ a : String, ∀ d : ℤ, Reachable st' →
      st'.miner_difficulty a = some d →
        MIN_DIFFICULTY ≤ d ∧ d ≤ MAX_DIFFICULTY) := by
  have hacc := submit_share_accepted f st m s n bt now hseed hpow
  refine ⟨?_, ?_, ?_, ?_, ?_⟩
  · rw [hacc]
    simp [Outcome.state, Function.update_same]
  · rw [hacc]
    simp only [Outcome.state, Function.update_same]
    rw [stepDiff_eq]
  · intro hnone
    simp [elapsedOf, hnone]
  · intro d hd
    rw [hacc] at hd
    simp only [Outcome.state, Function.update_same] at hd
    cases hd
    exact clampDiff_bounds (stepDiff st m now)
  · intro st' a d hreach hd
    exact reachable_diff_bounds st' hreach a d hd

/-- C3 witness: a first accepted share for `"alice"` on the genesis state
at time 7 stores `last_share_time = 7` and difficulty
`clampDiff (100 - 1) = 99`. -/
theorem C3_retargeting_witness :
    (submit_share f0 initialState ("alice") (some ("0")) (.value 0) 0 7 true).state.last_share_time
        ("alice") = some 7
  ∧ (submit_share f0 initialState ("alice") (some ("0")) (.value 0) 0 7 true).state.miner_difficulty
        ("alice") =
      some (clampDiff (currentDiff initialState ("alice") +
        (if elapsedOf initialState ("alice") 7 < TARGET_SHARE_TIME then 1 else -1))) := by
  have h := C3_retargeting f0 initialState ("alice") ("0") 0 0 7 rfl
    (by
      have h1 : powVal f0 ("0") 0 = 0 := rfl
      have h2 : currentDiff initialState ("alice") = DEFAULT_DIFFICULTY := rfl
      rw [h1, h2, thr_default_eq]
      norm_num)
  exact ⟨h.1, h.2.1⟩

lemma easy_threshold_eq : easy_threshold = 15099493 := by
  norm_num [easy_threshold, pyint]

lemma hard_threshold_eq : hard_threshold = 3355443 := by
  norm_num [hard_threshold, pyint]

lemma pyClamp_idem (d : ℤ) :
    pyClamp (max MIN_DIFFICULTY (min MAX_DIFFICULTY d)) = pyClamp d := by
  simp only [pyClamp, MIN_DIFFICULTY, MAX_DIFFICULTY]
  split_ifs <;> omega

lemma pyClamp_of_mem (d : ℤ) (h1 : MIN_DIFFICULTY ≤ d) (h2 : d ≤ MAX_DIFFICULTY) :
    pyClamp d = d := by
  simp only [MIN_DIFFICULTY, MAX_DIFFICULTY] at h1 h2
  simp only [pyClamp, MIN_DIFFICULTY, MAX_DIFFICULTY]
  split_ifs <;> omega

lemma thrInterp_val (d : ℤ) (h1 : MIN_DIFFICULTY ≤ d) (h2 : d ≤ MAX_DIFFICULTY) :
    thrInterp d = ⌊(15099493 : ℚ) - 11744050 * ((d : ℚ) - 75) / 45⌋ := by
  simp only [MIN_DIFFICULTY, MAX_DIFFICULTY] at h1 h2
  have hd1 : (75 : ℚ) ≤ (d : ℚ) := by exact_mod_cast h1
  have hd2 : (d : ℚ) ≤ 120 := by exact_mod_cast h2
  have hval : (easy_threshold : ℚ) +
      ((hard_threshold : ℚ) - (easy_threshold : ℚ)) *
        (((d : ℚ) - ((MIN_DIFFICULTY : ℤ) : ℚ)) /
          (((MAX_DIFFICULTY : ℤ) : ℚ) - ((MIN_DIFFICULTY : ℤ) : ℚ))) =
      (15099493 : ℚ) - 11744050 * ((d : ℚ) - 75) / 45 := by
    rw [easy_threshold_eq, hard_threshold_eq]
    simp only [MIN_DIFFICULTY, MAX_DIFFICULTY]
    push_cast
    ring
  have hbound : 11744050 * ((d : ℚ) - 75) / 45 ≤ 11744050 := by
    rw [div_le_iff₀ (by norm_num : (0 : ℚ) < 45)]
    nlinarith
  have hpos : 0 ≤ (15099493 : ℚ) - 11744050 * ((d : ℚ) - 75) / 45 := by
    linarith
  unfold thrInterp
  rw [hval, pyint, if_pos hpos]

lemma thrInterp_strict_anti (d₁ d₂ : ℤ) (h1 : MIN_DIFFICULTY ≤ d₁)
    (h2 : d₁ < d₂) (h3 : d₂ ≤ MAX_DIFFICULTY) :
    thrInterp d₂ < thrInterp d₁ := by
  rw [thrInterp_val d₁ h1 (le_of_lt (lt_of_lt_of_le h2 h3)),
    thrInterp_val d₂ (le_of_lt (lt_of_le_of_lt h1 h2)) h3]
  have hd : (d₁ : ℚ) + 1 ≤ (d₂ : ℚ) := by exact_mod_cast h2
  have key : ((15099493 : ℚ) - 11744050 * ((d₂ : ℚ) - 75) / 45) + 1 ≤
      (15099493 : ℚ) - 11744050 * ((d₁ : ℚ) - 75) / 45 := by
    linarith
  have hfl := Int.floor_mono key
  rw [Int.floor_add_one] at hfl
  omega

lemma thrInterp_min_eq : thrInterp MIN_DIFFICULTY = 15099493 := by
  rw [thrInterp_val MIN_DIFFICULTY le_rfl
    (by norm_num [MIN_DIFFICULTY, MAX_DIFFICULTY])]
  norm_num [MIN_DIFFICULTY]

lemma thrInterp_max_eq : thrInterp MAX_DIFFICULTY = 3355443 := by
  rw [thrInterp_val MAX_DIFFICULTY
    (by norm_num [MIN_DIFFICULTY, MAX_DIFFICULTY]) le_rfl]
  norm_num [MAX_DIFFICULTY]

/-- C6: the threshold mapping first clamps its difficulty argument into
`[MIN_DIFFICULTY, MAX_DIFFICULTY]` (the value at any integer equals the
value at the clamped integer), equals `int(0.9 * (16^6 - 1))` at
`MIN_DIFFICULTY` and `int(0.2 * (16^6 - 1))` at `MAX_DIFFICULTY`, and is
strictly decreasing in difficulty over the clamped range. -/
theorem C6_threshold_interpolation (d d₁ d₂ : ℤ)
    (h1 : MIN_DIFFICULTY ≤ d₁) (h2 : d₁ < d₂) (h3 : d₂ ≤ MAX_DIFFICULTY) :
    difficulty_to_threshold d =
      difficulty_to_threshold (max MIN_DIFFICULTY (min MAX_DIFFICULTY d))
  ∧ difficulty_to_threshold MIN_DIFFICULTY = pyint ((16 ^ 6 - 1 : ℚ) * (9 / 10))
  ∧ difficulty_to_threshold MAX_DIFFICULTY = pyint ((16 ^ 6 - 1 : ℚ) * (2 / 10))
  ∧ difficulty_to_threshold d₂ < difficulty_to_threshold d₁ := by
  have hmm : MIN_DIFFICULTY ≤ MAX_DIFFICULTY := by
    norm_num [MIN_DIFFICULTY, MAX_DIFFICULTY]
  refine ⟨?_, ?_, ?_, ?_⟩
  · unfold difficulty_to_threshold
    rw [pyClamp_idem]
  · unfold difficulty_to_threshold
    rw [pyClamp_of_mem MIN_DIFFICULTY le_rfl hmm, thrInterp_min_eq]
    rw [show pyint ((16 ^ 6 - 1 : ℚ) * (9 / 10)) = easy_threshold from rfl,
      easy_threshold_eq]
  · unfold difficulty_to_threshold
    rw [pyClamp_of_mem MAX_DIFFICULTY hmm le_rfl, thrInterp_max_eq]
    rw [show pyint ((16 ^ 6 - 1 : ℚ) * (2 / 10)) = hard_threshold from rfl,
      hard_threshold_eq]
  · unfold difficulty_to_threshold
    rw [pyClamp_of_mem d₁ h1 (le_of_lt (lt_of_lt_of_le h2 h3)),
      pyClamp_of_mem d₂ (le_of_lt (lt_of_le_of_lt h1 h2)) h3]
    exact thrInterp_strict_anti d₁ d₂ h1 h2 h3

/-- C6 witness: instantiated at the out-of-range difficulty 200 and the
in-range pair 80 < 90. -/
theorem C6_threshold_interpolation_witness :
    difficulty_to_threshold 200 =
      difficulty_to_threshold (max MIN_DIFFICULTY (min MAX_DIFFICULTY 200))
  ∧ difficulty_to_threshold MIN_DIFFICULTY = pyint ((16 ^ 6 - 1 : ℚ) * (9 / 10))
  ∧ difficulty_to_threshold MAX_DIFFICULTY = pyint ((16 ^ 6 - 1 : ℚ) * (2 / 10))
  ∧ difficulty_to_threshold 90 < difficulty_to_threshold 80 :=
  C6_threshold_interpolation 200 80 90 (by decide) (by decide) (by decide)

/-- C7 counterexample: a submission with a missing seed fails with the
error string `"Missing seed or nonce"`, which differs from the
`"Missing fields"` of the specification and lies outside the
specification's error set. -/
theorem C7_error_set_counterexample :
    (submit_share f0 initialState ("alice") none (.value 0) 0 0 true).errorMsg =
      some ("Missing seed or nonce")
  ∧ ("Missing seed or nonce") ≠ ("Missing fields")
  ∧ ("Missing seed or nonce") ∉
      [("Stale job"), ("Invalid share"), ("Missing fields"), ("Invalid nonce")] :=
  ⟨rfl, by decide, by decide⟩

/-- C7 (amended): every structured rejection of a share submission carries
an error drawn from exactly
`{"Stale job", "Invalid share", "Missing seed or nonce", "Invalid nonce"}`
(each is reachable); in particular a submission with a missing seed or
nonce field fails with `"Missing seed or nonce"`, not `"Missing fields"`. -/
theorem C7_amended_error_set (f : String → String) (st : ServerState)
    (m : String) (sd : Option String) (nc : NonceInput) (bt now : ℚ)
    (ok : Bool) (e : String) (st' : ServerState)
    (h : submit_share f st m sd nc bt now ok = .rejected e st') :
    e ∈ [("Stale job"), ("Invalid share"), ("Missing seed or nonce"), ("Invalid nonce")]
  ∧ (submit_share f0 initialState ("alice") none (.value 0) 0 0 true).errorMsg =
      some ("Missing seed or nonce")
  ∧ (submit_share f0 initialState ("alice") (some ("0")) .malformed 0 0 true).errorMsg =
      some ("Invalid nonce")
  ∧ (submit_share f0 initialState ("alice") (some ("1")) (.value 0) 0 0 true).errorMsg =
      some ("Stale job")
  ∧ (submit_share fF initialState ("alice") (some ("0")) (.value 0) 0 0 true).errorMsg =
      some ("Invalid share") := by
  refine ⟨?_, rfl, rfl, rfl, ?_⟩
  · rcases sd with _ | s
    · rcases nc with _ | _ | n <;> (cases h; simp)
    rcases nc with _ | _ | n
    · cases h
      simp
    · cases h
      simp
    by_cases hstale : s ≠ (tipOf st).hash
    · rw [submit_share_stale f st m s n bt now ok hstale] at h
      cases h
      simp
    push_neg at hstale
    by_cases hpow : difficulty_to_threshold (currentDiff st m) ≤ powVal f s n
    · rw [submit_share_invalid f st m s n bt now ok hstale hpow] at h
      cases h
      simp
    push_neg at hpow
    cases ok with
    | false =>
      rw [submit_share_savefail f st m s n bt now hstale hpow] at h
      cases h
    | true =>
      rw [submit_share_accepted f st m s n bt now hstale hpow] at h
      cases h
  · have hx : submit_share fF initialState ("alice") (some ("0")) (.value 0) 0 0 true =
        .rejected ("Invalid share") initialState :=
      submit_share_invalid fF initialState ("alice") ("0") 0 0 0 true rfl
        (by
          have h1 : powVal fF ("0") 0 = 16777215 := rfl
          have h2 : currentDiff initialState ("alice") = DEFAULT_DIFFICULTY := rfl
          rw [h1, h2, thr_default_eq]
          norm_num)
    rw [hx]
    rfl

/-- C7 witness for the amended claim, instantiated at a concrete stale
rejection. -/
theorem C7_amended_error_set_witness :
    ("Stale job") ∈
      [("Stale job"), ("Invalid share"), ("Missing seed or nonce"), ("Invalid nonce")]
  ∧ (submit_share f0 initialState ("alice") none (.value 0) 0 0 true).errorMsg =
      some ("Missing seed or nonce")
  ∧ (submit_share f0 initialState ("alice") (some ("0")) .malformed 0 0 true).errorMsg =
      some ("Invalid nonce")
  ∧ (submit_share f0 initialState ("alice") (some ("1")) (.value 0) 0 0 true).errorMsg =
      some ("Stale job")
  ∧ (submit_share fF initialState ("alice") (some ("0")) (.value 0) 0 0 true).errorMsg =
      some ("Invalid share") :=
  C7_amended_error_set f0 initialState ("alice") (some ("1")) (.value 0) 0 0 true
    ("Stale job") initialState
    (submit_share_stale f0 initialState ("alice") ("1") 0 0 0 true (by decide))

/-- A concrete state with a mined chain crediting `"alice"` 4 coins and a
single affordable pending transfer. -/
def stC8 : ServerState :=
  ⟨[genesisBlock, blkA], [⟨("alice"), ("bob"), (1 : ℚ)⟩],
    fun _ => none, fun _ => none⟩

lemma stC8_balance : compute_balances stC8.chain ("alice") = 4 := by
  show applyTxs (chainTxs [genesisBlock, blkA]) (fun _ => 0) ("alice") = 4
  norm_num [chainTxs, genesisBlock, blkA, applyTxs, applyTx, debit,
    Function.update_apply]

lemma stC8_pow : powVal f0 ("aa") 0 < difficulty_to_threshold (currentDiff stC8 ("alice")) := by
  have h1 : powVal f0 ("aa") 0 = 0 := rfl
  have h2 : currentDiff stC8 ("alice") = DEFAULT_DIFFICULTY := rfl
  rw [h1, h2, thr_default_eq]
  norm_num

lemma stC8_rem : (selection stC8).2.1 = [] := by
  have hcond : (1 : ℚ) ≤ compute_balances stC8.chain ("alice") := by
    rw [stC8_balance]
    norm_num
  show (selectTxs [⟨("alice"), ("bob"), (1 : ℚ)⟩] (compute_balances stC8.chain)).2.1 = []
  simp only [selectTxs]
  rw [if_pos hcond]

/-- C8 counterexample: on `stC8` with `save_chain` failing, the in-memory
mempool after the failure is empty — the selected transfer was removed
before the persistence attempt — while the durably committed pool still
holds it, so the post-failure state does not equal what was durably
committed. -/
theorem C8_atomicity_counterexample :
    (submit_share f0 stC8 ("alice") (some ("aa")) (.value 0) 0 0 false).state.mempool = []
  ∧ stC8.mempool = [⟨("alice"), ("bob"), (1 : ℚ)⟩]
  ∧ ([] : List Tx) ≠ [(⟨("alice"), ("bob"), (1 : ℚ)⟩ : Tx)] := by
  have hsf := submit_share_savefail f0 stC8 ("alice") ("aa") 0 0 0 rfl stC8_pow
  refine ⟨?_, rfl, by simp⟩
  rw [hsf]
  exact stC8_rem

/-- C8 (amended): if persisting the chain fails, the submission is not
reported accepted and the durable chain and the per-miner
difficulty/timing state are unchanged, but the in-memory mempool has
already been replaced: transfers selected for the failed block are removed
from the pool. -/
theorem C8_amended_persistence_failure (f : String → String) (st : ServerState)
    (m s : String) (n : ℤ) (bt now : ℚ)
    (hseed : s = (tipOf st).hash)
    (hpow : powVal f s n < difficulty_to_threshold (currentDiff st m)) :
    (submit_share f st m (some s) (.value n) bt now false).isAccepted = false
  ∧ (submit_share f st m (some s) (.value n) bt now false).state.chain = st.chain
  ∧ (submit_share f st m (some s) (.value n) bt now false).state.miner_difficulty =
      st.miner_difficulty
  ∧ (submit_share f st m (some s) (.value n) bt now false).state.last_share_time =
      st.last_share_time
  ∧ (submit_share f st m (some s) (.value n) bt now false).state.mempool =
      (selectTxs st.mempool (compute_balances st.chain)).2.1 := by
  have hsf := submit_share_savefail f st m s n bt now hseed hpow
  rw [hsf]
  exact ⟨rfl, rfl, rfl, rfl, rfl⟩

/-- C8 witness for the amended claim, instantiated at `stC8`. -/
theorem C8_amended_persistence_failure_witness :
    (submit_share f0 stC8 ("alice") (some ("aa")) (.value 0) 0 0 false).isAccepted = false
  ∧ (submit_share f0 stC8 ("alice") (some ("aa")) (.value 0) 0 0 false).state.chain =
      stC8.chain
  ∧ (submit_share f0 stC8 ("alice") (some ("aa")) (.value 0) 0 0 false).state.miner_difficulty =
      stC8.miner_difficulty
  ∧ (submit_share f0 stC8 ("alice") (some ("aa")) (.value 0) 0 0 false).state.last_share_time =
      stC8.last_share_time
  ∧ (submit_share f0 stC8 ("alice") (some ("aa")) (.value 0) 0 0 false).state.mempool =
      (selectTxs stC8.mempool (compute_balances stC8.chain)).2.1 :=
  C8_amended_persistence_failure f0 stC8 ("alice") ("aa") 0 0 0 rfl stC8_pow

lemma chainTxs_append (c d : List Block) :
    chainTxs (c ++ d) = chainTxs c ++ chainTxs d := by
  induction c with
  | nil => rfl
  | cons x xs ih =>
    show x.transactions ++ chainTxs (xs ++ d) =
      (x.transactions ++ chainTxs xs) ++ chainTxs d
    rw [ih, List.append_assoc]

lemma applyTxs_append (xs ys : List Tx) (b : String → ℚ) :
    applyTxs (xs ++ ys) b = applyTxs ys (applyTxs xs b) := by
  simp [applyTxs, List.foldl_append]

lemma compute_balances_append (c : List Block) (blk : Block) :
    compute_balances (c ++ [blk]) = applyTxs blk.transactions (compute_balances c) := by
  unfold compute_balances
  rw [chainTxs_append, applyTxs_append]
  simp [chainTxs]

lemma applyTx_nonneg (g b : String → ℚ) (tx : Tx)
    (hg : ∀ x, 0 ≤ g x) (hbg : ∀ x, b x ≤ g x)
    (hpos : 0 < tx.amount) (haff : tx.amount ≤ b tx.sender) :
    ∀ x, 0 ≤ applyTx g tx x := by
  obtain ⟨ts, tr, ta⟩ := tx
  intro x
  have h1 := hg x
  have h2 := hg tr
  have h3 := hg ts
  have h4 := hbg ts
  simp only at haff hpos
  simp only [applyTx, debit, Function.update_apply, ite_apply]
  split_ifs <;> (try subst_vars) <;> linarith

lemma applyTransfer_le_applyTx (g b : String → ℚ) (tx : Tx)
    (hbg : ∀ x, b x ≤ g x) (hpos : 0 < tx.amount) :
    ∀ x, applyTransfer b tx x ≤ applyTx g tx x := by
  obtain ⟨ts, tr, ta⟩ := tx
  intro x
  have h1 := hbg x
  have h2 := hbg tr
  have h3 := hbg ts
  simp only at hpos
  simp only [applyTransfer, debitAll, applyTx, debit, Function.update_apply,
    ite_apply]
  split_ifs <;> (try subst_vars) <;> linarith

lemma select_applyTxs_nonneg (pool : List Tx) (b g : String → ℚ)
    (hpos : ∀ tx ∈ pool, 0 < tx.amount)
    (hg : ∀ x, 0 ≤ g x) (hbg : ∀ x, b x ≤ g x) :
    ∀ x, 0 ≤ applyTxs (selectTxs pool b).1 g x := by
  induction pool generalizing b g with
  | nil =>
    intro x
    simpa [selectTxs, applyTxs] using hg x
  | cons tx rest ih =>
    have htx : 0 < tx.amount := hpos tx (List.mem_cons_self tx rest)
    have hrest : ∀ t ∈ rest, 0 < t.amount := fun t ht =>
      hpos t (List.mem_cons_of_mem tx ht)
    by_cases haff : tx.amount ≤ b tx.sender
    · have hsel : (selectTxs (tx :: rest) b).1 =
          tx :: (selectTxs rest (applyTransfer b tx)).1 := by
        simp [selectTxs, haff]
      rw [hsel]
      have step : applyTxs (tx :: (selectTxs rest (applyTransfer b tx)).1) g =
          applyTxs (selectTxs rest (applyTransfer b tx)).1 (applyTx g tx) := rfl
      rw [step]
      exact ih (applyTransfer b tx) (applyTx g tx) hrest
        (applyTx_nonneg g b tx hg hbg htx haff)
        (applyTransfer_le_applyTx g b tx hbg htx)
    · have hsel : (selectTxs (tx :: rest) b).1 = (selectTxs rest b).1 := by
        simp [selectTxs, haff]
      rw [hsel]
      exact ih b g hrest hg hbg

lemma get_block_reward_pos (h : ℕ) : 0 < get_block_reward h := by
  unfold get_block_reward
  refine lt_of_lt_of_le ?_ (le_max_right _ _)
  norm_num [MIN_REWARD]

lemma accepted_block_nonneg (st : ServerState) (m : String) (r : ℚ)
    (hr : 0 < r)
    (hpool : ∀ tx ∈ st.mempool, 0 < tx.amount)
    (hb : ∀ x, 0 ≤ compute_balances st.chain x) :
    ∀ x, 0 ≤ applyTxs
        ((⟨("network"), m, r⟩ : Tx) ::
          (selectTxs st.mempool (compute_balances st.chain)).1)
        (compute_balances st.chain) x := by
  intro x
  have hg : ∀ y, 0 ≤ applyTx (compute_balances st.chain) (⟨("network"), m, r⟩ : Tx) y := by
    intro y
    have hby := hb y
    have hbm := hb m
    simp [applyTx, debit, Function.update_apply, ite_apply]
    split_ifs <;> (try subst_vars) <;> linarith
  have hbg : ∀ y, compute_balances st.chain y ≤
      applyTx (compute_balances st.chain) (⟨("network"), m, r⟩ : Tx) y := by
    intro y
    have hby := hb y
    have hbm := hb m
    simp [applyTx, debit, Function.update_apply, ite_apply]
    split_ifs <;> (try subst_vars) <;> linarith
  have step : applyTxs
      ((⟨("network"), m, r⟩ : Tx) ::
        (selectTxs st.mempool (compute_balances st.chain)).1)
      (compute_balances st.chain) =
      applyTxs (selectTxs st.mempool (compute_balances st.chain)).1
        (applyTx (compute_balances st.chain) (⟨("network"), m, r⟩ : Tx)) := rfl
  rw [step]
  exact select_applyTxs_nonneg st.mempool (compute_balances st.chain) _ hpool hg hbg x

/-- The invariant maintained by every route: pending amounts are positive
and derived balances are nonnegative. -/
def GoodState (st : ServerState) : Prop :=
  (∀ tx ∈ st.mempool, 0 < tx.amount) ∧ ∀ x, 0 ≤ compute_balances st.chain x

lemma initial_good : GoodState initialState := by
  constructor
  · intro tx htx
    simp [initialState] at htx
  · intro x
    show (0 : ℚ) ≤ compute_balances [genesisBlock] x
    simp [compute_balances, chainTxs, applyTxs, genesisBlock]

lemma send_guard_fail (st : ServerState) (m : String) (r : Option String)
    (a : AmountInput)
    (h : r = none ∨ r = some ("") ∨ a = AmountInput.missing) :
    send st m r a = .failure ("Missing fields") st := by
  simp only [send, if_pos h]

lemma send_malformed_eq (st : ServerState) (m : String) (r : Option String)
    (h : ¬(r = none ∨ r = some ("") ∨
        AmountInput.malformed = AmountInput.missing)) :
    send st m r .malformed = .failure ("Invalid amount") st := by
  simp only [send, if_neg h]

lemma send_value_eq (st : ServerState) (m : String) (r : Option String) (q : ℚ)
    (h : ¬(r = none ∨ r = some ("") ∨
        AmountInput.value q = AmountInput.missing)) :
    send st m r (.value q) =
      (if q ≤ 0 then SendOutcome.failure ("Amount must be positive") st
       else if compute_balances st.chain m < q then
         SendOutcome.failure ("Insufficient balance") st
       else SendOutcome.success
         { st with mempool := st.mempool ++ [⟨m, r.getD (""), q⟩] }) := by
  simp only [send, if_neg h]

lemma send_mempool_cases (st : ServerState) (m : String) (r : Option String)
    (a : AmountInput) :
    (send st m r a).state.mempool = st.mempool
  ∨ ∃ q : ℚ, 0 < q ∧ (send st m r a).state.mempool =
      st.mempool ++ [⟨m, r.getD (""), q⟩] := by
  rcases a with _ | _ | q
  · left
    rw [send_guard_fail st m r AmountInput.missing (Or.inr (Or.inr rfl))]
    rfl
  · by_cases hguard : r = none ∨ r = some ("") ∨
        AmountInput.malformed = AmountInput.missing
    · left
      rw [send_guard_fail st m r AmountInput.malformed hguard]
      rfl
    · left
      rw [send_malformed_eq st m r hguard]
      rfl
  · by_cases hguard : r = none ∨ r = some ("") ∨
        AmountInput.value q = AmountInput.missing
    · left
      rw [send_guard_fail st m r (AmountInput.value q) hguard]
      rfl
    · rw [send_value_eq st m r q hguard]
      by_cases hq : q ≤ 0
      · left
        rw [if_pos hq]
        rfl
      · rw [if_neg hq]
        by_cases hbal : compute_balances st.chain m < q
        · left
          rw [if_pos hbal]
          rfl
        · right
          rw [if_neg hbal]
          exact ⟨q, lt_of_not_le hq, rfl⟩

lemma reachable_good (st : ServerState) (h : Reachable st) : GoodState st := by
  induction h with
  | base => exact initial_good
  | submit st f m sd nc bt now ok hr ih =>
    rcases sd with _ | s
    · rcases nc with _ | _ | n <;> exact ih
    rcases nc with _ | _ | n
    · exact ih
    · exact ih
    by_cases hstale : s ≠ (tipOf st).hash
    · rw [submit_share_stale f st m s n bt now ok hstale]
      exact ih
    push_neg at hstale
    by_cases hpow : difficulty_to_threshold (currentDiff st m) ≤ powVal f s n
    · rw [submit_share_invalid f st m s n bt now ok hstale hpow]
      exact ih
    push_neg at hpow
    cases ok with
    | false =>
      rw [submit_share_savefail f st m s n bt now hstale hpow]
      refine ⟨?_, ih.2⟩
      intro tx htx
      exact ih.1 tx
        ((selectTxs_rem_sublist st.mempool (compute_balances st.chain)).subset htx)
    | true =>
      rw [submit_share_accepted f st m s n bt now hstale hpow]
      constructor
      · intro tx htx
        exact ih.1 tx
          ((selectTxs_rem_sublist st.mempool (compute_balances st.chain)).subset htx)
      · intro x
        show 0 ≤ compute_balances (st.chain ++ [assembledBlock f st m s n bt]) x
        rw [compute_balances_append]
        exact accepted_block_nonneg st m (blockReward st)
          (get_block_reward_pos (newHeight st)) ih.1 ih.2 x
  | transfer st m r a hr ih =>
    refine ⟨?_, ?_⟩
    · rcases send_mempool_cases st m r a with hc | ⟨q, hq, hc⟩
      · intro tx htx
        rw [hc] at htx
        exact ih.1 tx htx
      · intro tx htx
        rw [hc] at htx
        rcases List.mem_append.mp htx with hmem | hmem
        · exact ih.1 tx hmem
        · have : tx = ⟨m, r.getD (""), q⟩ := by simpa using hmem
          rw [this]
          simpa using hq
    · intro x
      rw [(send_preserves_params st m r a).2.2]
      exact ih.2 x

/-- C9: in every state reachable from the freshly created genesis state by
share submissions and transfer enqueues, every account's derived balance
is nonnegative — no operation sequence can drive a derived balance below
zero. -/
theorem C9_nonnegative_balances (st : ServerState) (h : Reachable st)
    (a : String) : 0 ≤ compute_balances st.chain a :=
  (reachable_good st h).2 a

/-- C9 witness: the genesis state is reachable and `"alice"`'s derived
balance there is nonnegative. -/
theorem C9_nonnegative_balances_witness :
    0 ≤ compute_balances initialState.chain ("alice") :=
  C9_nonnegative_balances initialState Reachable.base ("alice")

/-- C10: the coinbase reward of the block being assembled is not credited
to the running balances used for affordability checks: a transfer from the
miner that exceeds the confirmed balance — even when the balance plus the
new block's reward would cover it — is retained in the pool, the block
carries only the coinbase, and the reward reaches the miner's derived
balance only once the block is appended. -/
theorem C10_reward_not_in_running_balances (f : String → String)
    (st : ServerState) (m s : String) (n : ℤ) (bt now : ℚ) (t : Tx)
    (hseed : s = (tipOf st).hash)
    (hpow : powVal f s n < difficulty_to_threshold (currentDiff st m))
    (hpool : st.mempool = [t]) (hsender : t.sender = m)
    (hpoor : compute_balances st.chain m < t.amount)
    (hrich : t.amount ≤ compute_balances st.chain m + blockReward st) :
    (submit_share f st m (some s) (.value n) bt now true).isAccepted = true
  ∧ (submit_share f st m (some s) (.value n) bt now true).pool = [t]
  ∧ (submit_share f st m (some s) (.value n) bt now true).tipTxs =
      [⟨("network"), m, blockReward st⟩]
  ∧ compute_balances
        (submit_share f st m (some s) (.value n) bt now true).state.chain m =
      compute_balances st.chain m + blockReward st := by
  have hacc := submit_share_accepted f st m s n bt now hseed hpow
  have hnot : ¬ t.amount ≤ compute_balances st.chain t.sender := by
    rw [hsender]
    exact not_le.mpr hpoor
  have hselEq : selection st = ([], [t], compute_balances st.chain) := by
    rw [selection, hpool]
    simp [selectTxs, hnot]
  refine ⟨?_, ?_, ?_, ?_⟩
  · rw [hacc]
    rfl
  · rw [hacc]
    show (selection st).2.1 = [t]
    rw [hselEq]
  · rw [hacc]
    show ((st.chain ++ [assembledBlock f st m s n bt]).getLastD genesisBlock).transactions =
      [⟨("network"), m, blockReward st⟩]
    rw [getLastD_snoc]
    show coinbaseOf st m :: (selection st).1 = [⟨("network"), m, blockReward st⟩]
    rw [hselEq]
    rfl
  · rw [hacc]
    show compute_balances (st.chain ++ [assembledBlock f st m s n bt]) m =
      compute_balances st.chain m + blockReward st
    rw [compute_balances_append]
    show applyTxs (coinbaseOf st m :: (selection st).1) (compute_balances st.chain) m =
      compute_balances st.chain m + blockReward st
    rw [hselEq]
    show applyTx (compute_balances st.chain) (coinbaseOf st m) m =
      compute_balances st.chain m + blockReward st
    simp [applyTx, debit, coinbaseOf, Function.update_apply]

/-- A concrete genesis-chain state with a single pending transfer whose
sender has no confirmed balance yet. -/
def stC10 : ServerState :=
  ⟨[genesisBlock], [⟨("alice"), ("bob"), (1 : ℚ)⟩], fun _ => none, fun _ => none⟩

/-- C10 witness: on `stC10`, the reward 4 of the block being mined would
cover `"alice"`'s pending transfer of 1, but her confirmed balance 0 does
not, so the transfer stays pending and her balance becomes 4 only after
the append. -/
theorem C10_reward_not_in_running_balances_witness :
    (submit_share f0 stC10 ("alice") (some ("0")) (.value 0) 0 0 true).isAccepted = true
  ∧ (submit_share f0 stC10 ("alice") (some ("0")) (.value 0) 0 0 true).pool =
      [⟨("alice"), ("bob"), (1 : ℚ)⟩]
  ∧ (submit_share f0 stC10 ("alice") (some ("0")) (.value 0) 0 0 true).tipTxs =
      [⟨("network"), ("alice"), blockReward stC10⟩]
  ∧ compute_balances
        (submit_share f0 stC10 ("alice") (some ("0")) (.value 0) 0 0 true).state.chain
        ("alice") =
      compute_balances stC10.chain ("alice") + blockReward stC10 :=
  C10_reward_not_in_running_balances f0 stC10 ("alice") ("0") 0 0 0
    (⟨("alice"), ("bob"), (1 : ℚ)⟩ : Tx) rfl
    (by
      have h1 : powVal f0 ("0") 0 = 0 := rfl
      have h2 : currentDiff stC10 ("alice") = DEFAULT_DIFFICULTY := rfl
      rw [h1, h2, thr_default_eq]
      norm_num)
    rfl rfl
    (by
      have hz : compute_balances stC10.chain ("alice") = 0 := rfl
      rw [hz]
      norm_num)
    (by
      have hz : compute_balances stC10.chain ("alice") = 0 := rfl
      rw [hz]
      have hrw : blockReward stC10 = 4 := by
        show get_block_reward 1 = 4
        norm_num [get_block_reward, INITIAL_REWARD, MIN_REWARD, HALVING_INTERVAL]
      rw [hrw]
      norm_num)

end Cado
